import Mathlib

/-!
# gf-casbin policy store adapter

A shallow embedding of `adapter.go`: the adapter translates between the policy
engine's in-memory model and the rows of one relational table.

* Go strings are Lean `String`s, the row type `casBinRule` is a structure of
  seven strings, exactly as in the source.
* The database behind `a.DB` is explicit state (`DB`): the table (or its
  absence), a fault schedule that says which of the coming requests fail, and
  the log of the requests issued so far. Every adapter method is a function
  from the state before the call to the returned error and the state after it.
* Go `int` is a 64 bit two's complement integer: sums and differences of
  `RemoveFilteredPolicy` are wrapped by `wrapInt64`.
* A slice access that would be out of range panics in Go: it is `none` here.
-/

namespace GfCasbin

/-! ## Rows -/

/-- One row of the table (`type casBinRule struct`). -/
structure casBinRule where
  PType : String
  V0 : String
  V1 : String
  V2 : String
  V3 : String
  V4 : String
  V5 : String
deriving DecidableEq, Repr

/-- The zero value `casBinRule{}`: every field is the empty string. -/
def casBinRule.zero : casBinRule := ⟨"", "", "", "", "", "", ""⟩

/-- The columns of the table created by `createTable`. -/
inductive Column
  | ptype | v0 | v1 | v2 | v3 | v4 | v5
deriving DecidableEq, Repr

/-- The value a row stores in a column. -/
def casBinRule.col (r : casBinRule) : Column → String
  | .ptype => r.PType
  | .v0 => r.V0
  | .v1 => r.V1
  | .v2 => r.V2
  | .v3 => r.V3
  | .v4 => r.V4
  | .v5 => r.V5

/-- The positional field `vi` of a row, for `i` in `0..5` (empty beyond). -/
def casBinRule.field (r : casBinRule) : Nat → String
  | 0 => r.V0
  | 1 => r.V1
  | 2 => r.V2
  | 3 => r.V3
  | 4 => r.V4
  | 5 => r.V5
  | _ => ""

/-- Go `rule[i]` on a slice, used only under the guard `len(rule) > i`. -/
def idx (rule : List String) (i : Nat) : String := rule.getD i ""

/-- Source `savePolicyLine`: the row of a rule type and a rule. -/
def savePolicyLine (ptype : String) (rule : List String) : casBinRule :=
  let line := casBinRule.zero
  let line := { line with PType := ptype }
  let line := if rule.length > 0 then { line with V0 := idx rule 0 } else line
  let line := if rule.length > 1 then { line with V1 := idx rule 1 } else line
  let line := if rule.length > 2 then { line with V2 := idx rule 2 } else line
  let line := if rule.length > 3 then { line with V3 := idx rule 3 } else line
  let line := if rule.length > 4 then { line with V4 := idx rule 4 } else line
  let line := if rule.length > 5 then { line with V5 := idx rule 5 } else line
  line

/-- The text that source `loadPolicyLine` builds from a row and hands to the
policy engine's line parser. -/
def lineText (line : casBinRule) : String :=
  let text := line.PType
  let text := if line.V0 ≠ "" then text ++ ", " ++ line.V0 else text
  let text := if line.V1 ≠ "" then text ++ ", " ++ line.V1 else text
  let text := if line.V2 ≠ "" then text ++ ", " ++ line.V2 else text
  let text := if line.V3 ≠ "" then text ++ ", " ++ line.V3 else text
  let text := if line.V4 ≠ "" then text ++ ", " ++ line.V4 else text
  let text := if line.V5 ≠ "" then text ++ ", " ++ line.V5 else text
  text

/-! ## The database -/

/-- A condition `column = value` added to a query by `db.Where`. -/
abbrev Cond := Column × String

/-- The requests the adapter sends to the database. -/
inductive Request
  | drop
  | create
  | insert (line : casBinRule)
  | delete (conds : List Cond)
  | scan
deriving DecidableEq, Repr

/-- The error a failed request returns; it names the request. -/
inductive DBError
  | failed (req : Request)
deriving DecidableEq, Repr

/-- The state of the database as the adapter sees it. -/
structure DB where
  /-- The rows of the table in insertion order; `none` when the table does not exist. -/
  table : Option (List casBinRule)
  /-- Fault schedule: the head says whether the next request fails. -/
  faults : List Bool
  /-- The requests issued so far, oldest first. -/
  log : List Request
deriving DecidableEq, Repr

/-- Whether a row satisfies every condition of a query. -/
def satisfies (conds : List Cond) (r : casBinRule) : Bool :=
  conds.all (fun c => r.col c.1 == c.2)

/-- The effect of a request that is not made to fail by the fault schedule:
`DROP TABLE` and the row requests fail on a missing table, `CREATE TABLE IF
NOT EXISTS` keeps an existing table. A failed request changes nothing. -/
def effect : Request → Option (List casBinRule) → Option (Option (List casBinRule))
  | .drop, some _ => some none
  | .drop, none => none
  | .create, none => some (some [])
  | .create, some t => some (some t)
  | .insert line, some t => some (some (t ++ [line]))
  | .insert _, none => none
  | .delete conds, some t => some (some (t.filter (fun r => !satisfies conds r)))
  | .delete _, none => none
  | .scan, some t => some (some t)
  | .scan, none => none

/-- Send one request: it is logged, it consumes one entry of the fault
schedule, and it either fails (no effect) or takes effect. -/
def DB.exec (db : DB) (req : Request) : Option DBError × DB :=
  let db1 : DB := { db with faults := db.faults.tail, log := db.log ++ [req] }
  if db.faults.head? = some true then (some (.failed req), db1)
  else
    match effect req db.table with
    | none => (some (.failed req), db1)
    | some t => (none, { db1 with table := t })

/-! ## The in-memory model of the policy engine -/

/-- The part of `model.Assertion` the adapter reads: the ordered rule list. -/
structure Assertion where
  Policy : List (List String)
deriving DecidableEq, Repr

/-- A section (`model.AssertionMap`): rule type to assertion, listed in the
order in which the `range` loop of `SavePolicy` visits the keys. -/
abbrev AssertionMap := List (String × Assertion)

/-- The model (`model.Model`): section name to section. -/
abbrev Model := List (String × AssertionMap)

/-- Go `model[sec]`: the section, or the empty (nil) map when it is absent. -/
def Model.sec (model : Model) (sec : String) : AssertionMap :=
  match model.find? (fun e => e.1 == sec) with
  | some e => e.2
  | none => []

/-! ## The adapter's operations -/

/-- The inner loop of `SavePolicy`: insert the rules of one rule type, stopping
at the first error. -/
def insertRules (ptype : String) : List (List String) → DB → Option DBError × DB
  | [], db => (none, db)
  | rule :: rest, db =>
    match db.exec (.insert (savePolicyLine ptype rule)) with
    | (some err, db1) => (some err, db1)
    | (none, db1) => insertRules ptype rest db1

/-- The outer loop of `SavePolicy` over one section. -/
def insertSection : AssertionMap → DB → Option DBError × DB
  | [], db => (none, db)
  | (ptype, ast) :: rest, db =>
    match insertRules ptype ast.Policy db with
    | (some err, db1) => (some err, db1)
    | (none, db1) => insertSection rest db1

/-- Source `Adapter.dropTable`: `DROP TABLE <name>`. -/
def dropTable (db : DB) : Option DBError × DB :=
  db.exec .drop

/-- Source `Adapter.createTable`: `CREATE TABLE IF NOT EXISTS <name> (...)`. -/
def createTable (db : DB) : Option DBError × DB :=
  db.exec .create

/-- Source `Adapter.SavePolicy`. -/
def SavePolicy (model : Model) (db : DB) : Option DBError × DB :=
  match dropTable db with
  | (some err, db1) => (some err, db1)
  | (none, db1) =>
    match createTable db1 with
    | (some err, db2) => (some err, db2)
    | (none, db2) =>
      match insertSection (model.sec "p") db2 with
      | (some err, db3) => (some err, db3)
      | (none, db3) => insertSection (model.sec "g") db3

/-- Source `Adapter.AddPolicy`; the section name is not used. -/
def AddPolicy (_sec : String) (ptype : String) (rule : List String) (db : DB) :
    Option DBError × DB :=
  db.exec (.insert (savePolicyLine ptype rule))

/-- The conditions source `rawDelete` puts on the query: the rule type always,
a positional field only when the filter's value is not empty. -/
def rawDeleteConds (line : casBinRule) : List Cond :=
  let conds := [(Column.ptype, line.PType)]
  let conds := if line.V0 ≠ "" then conds ++ [(Column.v0, line.V0)] else conds
  let conds := if line.V1 ≠ "" then conds ++ [(Column.v1, line.V1)] else conds
  let conds := if line.V2 ≠ "" then conds ++ [(Column.v2, line.V2)] else conds
  let conds := if line.V3 ≠ "" then conds ++ [(Column.v3, line.V3)] else conds
  let conds := if line.V4 ≠ "" then conds ++ [(Column.v4, line.V4)] else conds
  let conds := if line.V5 ≠ "" then conds ++ [(Column.v5, line.V5)] else conds
  conds

/-- Source `rawDelete`. -/
def rawDelete (line : casBinRule) (db : DB) : Option DBError × DB :=
  db.exec (.delete (rawDeleteConds line))

/-- Source `Adapter.RemovePolicy`; the section name is not used. -/
def RemovePolicy (_sec : String) (ptype : String) (rule : List String) (db : DB) :
    Option DBError × DB :=
  rawDelete (savePolicyLine ptype rule) db

/-- Go `int` arithmetic: the result of a sum or difference, wrapped to 64 bit
two's complement. -/
def wrapInt64 (x : Int) : Int :=
  (x + 9223372036854775808) % 18446744073709551616 - 9223372036854775808

/-- Go `fieldValues[k]`: a panic (`none`) when `k` is out of range. -/
def sliceAt (fieldValues : List String) (k : Int) : Option String :=
  if 0 ≤ k ∧ k < fieldValues.length then fieldValues.get? k.toNat else none

/-- One guarded assignment of `RemoveFilteredPolicy`:
`if fieldIndex <= i && i < fieldIndex+len(fieldValues) { set(fieldValues[i-fieldIndex]) }`.
The conjunction is short-circuit, the sum and the difference are Go `int`s. -/
def setFrom (i : Int) (fieldIndex : Int) (fieldValues : List String)
    (set : String → casBinRule) (line : casBinRule) : Option casBinRule :=
  if fieldIndex ≤ i ∧ i < wrapInt64 (fieldIndex + fieldValues.length) then
    (sliceAt fieldValues (wrapInt64 (i - fieldIndex))).map set
  else some line

/-- The filter row that source `RemoveFilteredPolicy` builds before it calls
`rawDelete`; `none` when a slice access panics. -/
def filterLine (ptype : String) (fieldIndex : Int) (fieldValues : List String) :
    Option casBinRule := do
  let line := casBinRule.zero
  let line := { line with PType := ptype }
  let line ← setFrom 0 fieldIndex fieldValues (fun v => { line with V0 := v }) line
  let line ← setFrom 1 fieldIndex fieldValues (fun v => { line with V1 := v }) line
  let line ← setFrom 2 fieldIndex fieldValues (fun v => { line with V2 := v }) line
  let line ← setFrom 3 fieldIndex fieldValues (fun v => { line with V3 := v }) line
  let line ← setFrom 4 fieldIndex fieldValues (fun v => { line with V4 := v }) line
  let line ← setFrom 5 fieldIndex fieldValues (fun v => { line with V5 := v }) line
  pure line

/-- Source `Adapter.RemoveFilteredPolicy`; `none` when building the filter
panics (then no request is sent). -/
def RemoveFilteredPolicy (_sec : String) (ptype : String) (fieldIndex : Int)
    (fieldValues : List String) (db : DB) : Option (Option DBError × DB) :=
  (filterLine ptype fieldIndex fieldValues).map (fun line => rawDelete line db)

/-! ## Loading -/

/-- Go `unicode.IsSpace`, the characters `strings.TrimSpace` removes. -/
def isSpace (c : Char) : Bool :=
  c = '\t' || c = '\n' || c.toNat = 11 || c.toNat = 12 || c = '\r' || c = ' ' ||
  c.toNat = 0x85 || c.toNat = 0xA0 || c.toNat = 0x1680 ||
  (0x2000 ≤ c.toNat && c.toNat ≤ 0x200A) || c.toNat = 0x2028 || c.toNat = 0x2029 ||
  c.toNat = 0x202F || c.toNat = 0x205F || c.toNat = 0x3000

/-- Split a text on commas; the empty text gives one empty token. -/
def splitComma : List Char → List (List Char)
  | [] => [[]]
  | c :: cs =>
    if c = ',' then [] :: splitComma cs
    else
      match splitComma cs with
      | [] => [[c]]
      | tok :: toks => (c :: tok) :: toks

/-- Remove the white space at both ends of a token. -/
def trimSpace (cs : List Char) : List Char :=
  ((cs.dropWhile isSpace).reverse.dropWhile isSpace).reverse

/-- Modelled from the spec: the policy engine's line parser
(`persist.LoadPolicyLine`, an external collaborator whose code is not part of
the repository), as the claims describe it: split the line on commas, trim
every token, the first token is the rule type and the rest is the tuple. -/
def parseLine (text : String) : String × List String :=
  match (splitComma text.data).map (fun tok => String.mk (trimSpace tok)) with
  | [] => ("", [])
  | key :: tuple => (key, tuple)

/-- The model being loaded, seen through what the parser adds to it: the rule
type and the tuple of every parsed line, oldest first. A fresh model is `[]`. -/
abbrev Loaded := List (String × List String)

/-- Modelled from the spec: `persist.LoadPolicyLine(lineText, model)` adds the
parsed tuple to the model under the parsed rule type. -/
def persistLoadPolicyLine (text : String) (model : Loaded) : Loaded :=
  model ++ [parseLine text]

/-- Source `loadPolicyLine`. -/
def loadPolicyLine (line : casBinRule) (model : Loaded) : Loaded :=
  persistLoadPolicyLine (lineText line) model

/-- The loop of `LoadPolicy` over the scanned rows. -/
def loadLines : List casBinRule → Loaded → Loaded
  | [], model => model
  | line :: rest, model => loadLines rest (loadPolicyLine line model)

/-- Source `Adapter.LoadPolicy`: scan the table, then load every row. The rows
come in the order of `DB.table`; a failed scan leaves the model as it was. -/
def LoadPolicy (model : Loaded) (db : DB) : Option DBError × Loaded × DB :=
  match db.exec .scan with
  | (some err, db1) => (some err, model, db1)
  | (none, db1) => (none, loadLines (db1.table.getD []) model, db1)

/-- The tuples a loaded model holds under a rule type, oldest first. -/
def Loaded.tuplesOf (model : Loaded) (ptype : String) : List (List String) :=
  (model.filter (fun e => e.1 == ptype)).map Prod.snd

/-! ## Specification-side vocabulary -/

/-- The rows of one section, in the order `SavePolicy` inserts them. -/
def sectionRows : AssertionMap → List casBinRule
  | [] => []
  | (ptype, ast) :: rest => ast.Policy.map (savePolicyLine ptype) ++ sectionRows rest

/-- The serialisation of a model: the rows of section "p", then those of "g". -/
def modelRows (model : Model) : List casBinRule :=
  sectionRows (model.sec "p") ++ sectionRows (model.sec "g")

/-- The number of rules of one section. -/
def sectionCount : AssertionMap → Nat
  | [] => 0
  | (_, ast) :: rest => ast.Policy.length + sectionCount rest

/-- The rules a section holds under a rule type. -/
def sectionTuples (ptype : String) : AssertionMap → List (List String)
  | [] => []
  | (key, ast) :: rest =>
    (if key = ptype then ast.Policy else []) ++ sectionTuples ptype rest

/-- The rules the "p" and "g" sections of a model hold under a rule type. -/
def Model.tuplesOf (model : Model) (ptype : String) : List (List String) :=
  sectionTuples ptype (model.sec "p") ++ sectionTuples ptype (model.sec "g")

/-- The requests a complete `SavePolicy` sends, in order. -/
def savePlan (model : Model) : List Request :=
  .drop :: .create :: (modelRows model).map Request.insert

/-- The rows the specification says `RemovePolicy(section, ruleType, parameters)`
removes: the rule type is equal, and every position `i` of `0..5` whose
parameter exists and is not empty is equal to it. -/
def removeMatches (ruleType : String) (parameters : List String) (r : casBinRule) : Bool :=
  r.PType == ruleType &&
    (List.range 6).all (fun i =>
      match parameters[i]? with
      | some p => p == "" || r.field i == p
      | none => true)

/-- The filter value the specification gives position `i` in
`RemoveFilteredPolicy`: `fieldValues[i - fieldIndex]` for
`fieldIndex <= i < fieldIndex + len(fieldValues)`, no constraint elsewhere. -/
def filterValue (fieldIndex : Int) (fieldValues : List String) (i : Nat) : Option String :=
  if fieldIndex ≤ i ∧ (i : Int) < fieldIndex + fieldValues.length then
    fieldValues[(i - fieldIndex).toNat]?
  else none

/-- The rows the specification says `RemoveFilteredPolicy` removes. -/
def filteredMatches (ruleType : String) (fieldIndex : Int) (fieldValues : List String)
    (r : casBinRule) : Bool :=
  r.PType == ruleType &&
    (List.range 6).all (fun i =>
      match filterValue fieldIndex fieldValues i with
      | some v => v == "" || r.field i == v
      | none => true)

/-- The slice indices `RemoveFilteredPolicy` evaluates `fieldValues[...]` at. -/
def accessed (fieldIndex : Int) (fieldValues : List String) : List Int :=
  (List.range 6).filterMap (fun i =>
    if fieldIndex ≤ i ∧ (i : Int) < wrapInt64 (fieldIndex + fieldValues.length) then
      some (wrapInt64 (i - fieldIndex))
    else none)


/-- The row invariant of the table: the non-empty fields are contiguous from
`v0` upward, that is, no empty field `vi` is followed by a non-empty `vj`. -/
def rowInv (r : casBinRule) : Prop :=
  ∀ j, j < 6 → ∀ i, i < j → r.field i = "" → r.field j = ""

instance (r : casBinRule) : Decidable (rowInv r) := by
  unfold rowInv
  infer_instance

/-- The table invariant: every row of the table (if there is a table)
satisfies the row invariant. -/
def tableInv (db : DB) : Prop :=
  ∀ r, r ∈ db.table.getD [] → rowInv r

instance (db : DB) : Decidable (tableInv db) := by
  unfold tableInv
  infer_instance

/-- A rule whose row satisfies the row invariant: among its first six
parameters no empty one comes before a non-empty one. -/
def ruleContiguous (rule : List String) : Prop :=
  ∀ j, j < 6 → ∀ i, i < j → rule.getD i "" = "" → rule.getD j "" = ""

instance (rule : List String) : Decidable (ruleContiguous rule) := by
  unfold ruleContiguous
  infer_instance


/-- A parameter that survives the trip through the line text: not empty, free
of commas, and without white space at either end. -/
def cleanParam (s : String) : Prop :=
  s ≠ "" ∧ ',' ∉ s.data ∧ trimSpace s.data = s.data

instance (s : String) : Decidable (cleanParam s) := by
  unfold cleanParam
  infer_instance

/-- A rule type that survives the trip through the line text: free of commas
and without white space at either end. -/
def cleanType (s : String) : Prop :=
  ',' ∉ s.data ∧ trimSpace s.data = s.data

instance (s : String) : Decidable (cleanType s) := by
  unfold cleanType
  infer_instance

/-- The line text the specification describes for a rule type and a rule: the
rule type followed, for each parameter in order, by ", " and the parameter. -/
def joinedLine (ptype : String) (rule : List String) : String :=
  rule.foldl (fun acc p => acc ++ ", " ++ p) ptype


/-- Send the requests of a list in order, stopping at the first error. -/
def runPlan : List Request → DB → Option DBError × DB
  | [], db => (none, db)
  | req :: rest, db =>
    match db.exec req with
    | (some err, db1) => (some err, db1)
    | (none, db1) => runPlan rest db1

/-- The table after a list of requests none of which is made to fail by the
fault schedule; `none` when one of them fails on a missing table. -/
def tableAfter : List Request → Option (List casBinRule) → Option (Option (List casBinRule))
  | [], t => some t
  | req :: rest, t => (effect req t).bind (tableAfter rest)

/-! ## Lemmas on the database -/

theorem exec_log (db : DB) (req : Request) : (db.exec req).2.log = db.log ++ [req] := by
  unfold DB.exec
  split
  · rfl
  · split <;> rfl

theorem exec_ok (db : DB) (req : Request) (t : Option (List casBinRule))
    (hf : db.faults.head? ≠ some true) (he : effect req db.table = some t) :
    db.exec req = (none, ⟨t, db.faults.tail, db.log ++ [req]⟩) := by
  unfold DB.exec
  simp [hf, he]

theorem exec_fault (db : DB) (req : Request) (hf : db.faults.head? = some true) :
    db.exec req = (some (.failed req), ⟨db.table, db.faults.tail, db.log ++ [req]⟩) := by
  unfold DB.exec
  simp [hf]

theorem exec_none (db : DB) (req : Request) (h : (db.exec req).1 = none) :
    effect req db.table = some (db.exec req).2.table := by
  unfold DB.exec at h ⊢
  split at h
  · simp at h
  · rename_i hf
    simp only [hf, if_false]
    split at h
    · simp at h
    · rename_i t he
      simp [he]

theorem exec_table_cases (db : DB) (req : Request) :
    (db.exec req).2.table = db.table ∨ effect req db.table = some (db.exec req).2.table := by
  unfold DB.exec
  split
  · exact Or.inl rfl
  · split
    · exact Or.inl rfl
    · rename_i t he
      exact Or.inr (by simp [he])

theorem runPlan_append (a b : List Request) (db : DB) :
    runPlan (a ++ b) db =
      match runPlan a db with
      | (some err, db1) => (some err, db1)
      | (none, db1) => runPlan b db1 := by
  induction a generalizing db with
  | nil => simp [runPlan]
  | cons req rest ih =>
    simp only [List.cons_append, runPlan]
    rcases h : db.exec req with ⟨_ | err, db1⟩
    · simp [ih]
    · simp

theorem insertRules_eq (ptype : String) (rules : List (List String)) (db : DB) :
    insertRules ptype rules db =
      runPlan ((rules.map (savePolicyLine ptype)).map Request.insert) db := by
  induction rules generalizing db with
  | nil => simp [insertRules, runPlan]
  | cons rule rest ih =>
    simp only [insertRules, List.map_cons, runPlan]
    rcases h : db.exec (.insert (savePolicyLine ptype rule)) with ⟨_ | err, db1⟩
    · simp [ih]
    · simp

theorem insertSection_eq (sec : AssertionMap) (db : DB) :
    insertSection sec db = runPlan ((sectionRows sec).map Request.insert) db := by
  induction sec generalizing db with
  | nil => simp [insertSection, sectionRows, runPlan]
  | cons e rest ih =>
    obtain ⟨ptype, ast⟩ := e
    simp only [insertSection, sectionRows, List.map_append, runPlan_append, insertRules_eq]
    rcases h : runPlan ((ast.Policy.map (savePolicyLine ptype)).map Request.insert) db
      with ⟨_ | err, db1⟩
    · simp [ih]
    · simp

theorem SavePolicy_eq (model : Model) (db : DB) :
    SavePolicy model db = runPlan (savePlan model) db := by
  simp only [SavePolicy, dropTable, createTable, savePlan, modelRows, runPlan, List.map_append,
    runPlan_append,
    insertSection_eq]

theorem runPlan_none (plan : List Request) (db : DB) (h : (runPlan plan db).1 = none) :
    tableAfter plan db.table = some (runPlan plan db).2.table ∧
      (runPlan plan db).2.log = db.log ++ plan := by
  induction plan generalizing db with
  | nil => simp [runPlan, tableAfter]
  | cons req rest ih =>
    simp only [runPlan] at h ⊢
    rcases hx : db.exec req with ⟨_ | err, db1⟩
    · rw [hx] at h
      simp only at h ⊢
      have h1 := exec_none db req (by simp [hx])
      have h2 : db1.log = db.log ++ [req] := by simpa [hx] using exec_log db req
      rw [hx] at h1
      obtain ⟨ht, hl⟩ := ih db1 h
      simp [tableAfter, h1, ht, hl, h2]
    · rw [hx] at h
      simp at h

theorem getD_tail (fs : List Bool) (i : Nat) : fs.tail.getD i false = fs.getD (i + 1) false := by
  cases fs <;> simp

theorem head_of_getD (fs : List Bool) (b : Bool) (h : fs.getD 0 false = b) (hb : b = false) :
    fs.head? ≠ some true := by
  cases fs <;> simp_all

theorem head_of_getD_true (fs : List Bool) (h : fs.getD 0 false = true) :
    fs.head? = some true := by
  cases fs <;> simp_all

theorem runPlan_ok (plan : List Request) (db : DB) (t : Option (List casBinRule))
    (hf : ∀ i, i < plan.length → db.faults.getD i false = false)
    (ht : tableAfter plan db.table = some t) :
    runPlan plan db = (none, ⟨t, db.faults.drop plan.length, db.log ++ plan⟩) := by
  induction plan generalizing db with
  | nil =>
    simp only [tableAfter, Option.some.injEq] at ht
    simp [runPlan, ← ht]
  | cons req rest ih =>
    simp only [tableAfter] at ht
    rcases he : effect req db.table with _ | t1
    · simp [he] at ht
    · simp only [he, Option.some_bind] at ht
      have h0 := hf 0 (by simp)
      have hx := exec_ok db req t1 (head_of_getD _ _ h0 rfl) he
      simp only [runPlan, hx]
      have := ih ⟨t1, db.faults.tail, db.log ++ [req]⟩
        (fun i hi => by
          have := hf (i + 1) (by simpa using hi)
          simpa [getD_tail] using this) ht
      simpa using this

theorem runPlan_fail (plan : List Request) (db : DB) (t : Option (List casBinRule))
    (k : Nat) (hk : k < plan.length)
    (hf : ∀ i, i < k → db.faults.getD i false = false)
    (hb : db.faults.getD k false = true)
    (ht : tableAfter (plan.take k) db.table = some t) :
    runPlan plan db =
      (some (.failed plan[k]), ⟨t, db.faults.drop (k + 1), db.log ++ plan.take (k + 1)⟩) := by
  induction plan generalizing db k with
  | nil => simp at hk
  | cons req rest ih =>
    cases k with
    | zero =>
      simp only [List.take_zero, tableAfter, Option.some.injEq] at ht
      have hx := exec_fault db req (head_of_getD_true _ hb)
      simp [runPlan, hx, ← ht]
    | succ k =>
      simp only [List.take_succ_cons, tableAfter] at ht
      rcases he : effect req db.table with _ | t1
      · simp [he] at ht
      · simp only [he, Option.some_bind] at ht
        have h0 := hf 0 (by simp)
        have hx := exec_ok db req t1 (head_of_getD _ _ h0 rfl) he
        simp only [runPlan, hx]
        have := ih ⟨t1, db.faults.tail, db.log ++ [req]⟩ k (by simpa using hk)
          (fun i hi => by
            have := hf (i + 1) (by omega)
            simpa [getD_tail] using this)
          (by simpa [getD_tail] using hb) ht
        simpa using this

theorem tableAfter_inserts (rows t : List casBinRule) :
    tableAfter (rows.map Request.insert) (some t) = some (some (t ++ rows)) := by
  induction rows generalizing t with
  | nil => simp [tableAfter]
  | cons r rest ih => simp [tableAfter, effect, ih]

theorem tableAfter_savePlan (model : Model) (t : List casBinRule) :
    tableAfter (savePlan model) (some t) = some (some (modelRows model)) := by
  simp [savePlan, tableAfter, effect, tableAfter_inserts]

theorem tableAfter_savePlan_none (model : Model) :
    tableAfter (savePlan model) none = none := by
  simp [savePlan, tableAfter, effect]

theorem sectionRows_length (sec : AssertionMap) :
    (sectionRows sec).length = sectionCount sec := by
  induction sec with
  | nil => rfl
  | cons e rest ih =>
    obtain ⟨ptype, ast⟩ := e
    simp [sectionRows, sectionCount, ih]

theorem tableAfter_savePlan_take (model : Model) (t : List casBinRule) (k : Nat) :
    tableAfter ((savePlan model).take k) (some t) =
      some (if k = 0 then some t else if k = 1 then none
        else some ((modelRows model).take (k - 2))) := by
  match k with
  | 0 => simp [tableAfter]
  | 1 => simp [savePlan, tableAfter, effect]
  | k + 2 =>
    simp [savePlan, tableAfter, effect, ← List.map_take, tableAfter_inserts]

theorem getD_of_not_mem_take (fs : List Bool) (k : Nat) (h : true ∉ fs.take k) :
    ∀ i, i < k → fs.getD i false = false := by
  induction fs generalizing k with
  | nil => intro i _; simp
  | cons f rest ih =>
    intro i hi
    cases k with
    | zero => omega
    | succ k =>
      simp only [List.take_succ_cons, List.mem_cons, not_or] at h
      cases i with
      | zero =>
        cases f
        · simp
        · exact absurd rfl h.1
      | succ i => simpa using ih k h.2 i (by omega)

theorem getD_of_getElem? (fs : List Bool) (k : Nat) (h : fs[k]? = some true) :
    fs.getD k false = true := by
  simp [List.getD_eq_getElem?_getD, h]

theorem sectionRows_eq_flatMap (sec : AssertionMap) :
    sectionRows sec = sec.flatMap (fun e => e.2.Policy.map (savePolicyLine e.1)) := by
  induction sec with
  | nil => rfl
  | cons e rest ih =>
    obtain ⟨ptype, ast⟩ := e
    simp [sectionRows, ih]

theorem sectionCount_eq_sum (sec : AssertionMap) :
    sectionCount sec = (sec.map (fun e => e.2.Policy.length)).sum := by
  induction sec with
  | nil => rfl
  | cons e rest ih =>
    obtain ⟨ptype, ast⟩ := e
    simp [sectionCount, ih]

theorem savePolicyLine_take (ptype : String) (rule : List String) :
    savePolicyLine ptype rule = savePolicyLine ptype (rule.take 6) := by
  match rule with
  | [] => rfl
  | [_] => rfl
  | [_, _] => rfl
  | [_, _, _] => rfl
  | [_, _, _, _] => rfl
  | [_, _, _, _, _] => rfl
  | _ :: _ :: _ :: _ :: _ :: _ :: _ => simp [savePolicyLine, idx]

theorem savePolicyLine_field (ptype : String) (rule : List String) (i : Nat) (hi : i < 6) :
    (savePolicyLine ptype rule).field i = if h : i < rule.length then rule[i] else "" := by
  match rule with
  | [] => interval_cases i <;> rfl
  | [_] => interval_cases i <;> rfl
  | [_, _] => interval_cases i <;> rfl
  | [_, _, _] => interval_cases i <;> rfl
  | [_, _, _, _] => interval_cases i <;> rfl
  | [_, _, _, _, _] => interval_cases i <;> rfl
  | _ :: _ :: _ :: _ :: _ :: _ :: _ =>
    interval_cases i <;> simp [savePolicyLine, idx, casBinRule.field]

theorem savePolicyLine_ptype (ptype : String) (rule : List String) :
    (savePolicyLine ptype rule).PType = ptype := by
  simp only [savePolicyLine]
  repeat' split
  all_goals rfl

/-! ## Lemmas on deletion -/

theorem forall_lt_six (P : Nat → Prop) :
    (∀ i, i < 6 → P i) ↔ P 0 ∧ P 1 ∧ P 2 ∧ P 3 ∧ P 4 ∧ P 5 := by
  constructor
  · intro h
    exact ⟨h 0 (by omega), h 1 (by omega), h 2 (by omega), h 3 (by omega), h 4 (by omega),
      h 5 (by omega)⟩
  · rintro ⟨h0, h1, h2, h3, h4, h5⟩ i hi
    interval_cases i <;> assumption

theorem ite_append_singleton {α : Type} (c : Prop) [Decidable c] (l : List α) (x : α) :
    (if c then l ++ [x] else l) = l ++ (if c then [x] else []) := by
  split <;> simp

theorem satisfies_append (a b : List Cond) (r : casBinRule) :
    satisfies (a ++ b) r = (satisfies a r && satisfies b r) := by
  simp [satisfies]

theorem satisfies_ite (c : Column) (v : String) (r : casBinRule) :
    satisfies (if v ≠ "" then [(c, v)] else []) r = true ↔ (v ≠ "" → r.col c = v) := by
  by_cases hv : v = "" <;> simp [hv, satisfies]

theorem satisfies_rawDeleteConds (line r : casBinRule) :
    satisfies (rawDeleteConds line) r = true ↔
      r.PType = line.PType ∧ ∀ i, i < 6 → line.field i ≠ "" → r.field i = line.field i := by
  rw [forall_lt_six]
  simp only [rawDeleteConds, ite_append_singleton, satisfies_append, Bool.and_eq_true,
    satisfies_ite, casBinRule.field, casBinRule.col, and_assoc]
  simp [satisfies, casBinRule.col]

theorem removeMatches_iff (ruleType : String) (parameters : List String) (r : casBinRule) :
    removeMatches ruleType parameters r = true ↔
      r.PType = ruleType ∧
        ∀ i, i < 6 → ∀ p, parameters[i]? = some p → p ≠ "" → r.field i = p := by
  simp only [removeMatches, Bool.and_eq_true, beq_iff_eq, List.all_eq_true, List.mem_range]
  refine and_congr_right (fun _ => forall_congr' (fun i => imp_congr_right (fun _ => ?_)))
  rcases parameters[i]? with _ | p
  · simp
  · by_cases hp : p = "" <;> simp [hp]

theorem filteredMatches_iff (ruleType : String) (fieldIndex : Int) (fieldValues : List String)
    (r : casBinRule) :
    filteredMatches ruleType fieldIndex fieldValues r = true ↔
      r.PType = ruleType ∧
        ∀ i, i < 6 → ∀ v, filterValue fieldIndex fieldValues i = some v → v ≠ "" →
          r.field i = v := by
  simp only [filteredMatches, Bool.and_eq_true, beq_iff_eq, List.all_eq_true, List.mem_range]
  refine and_congr_right (fun _ => forall_congr' (fun i => imp_congr_right (fun _ => ?_)))
  rcases filterValue fieldIndex fieldValues i with _ | p
  · simp
  · by_cases hp : p = "" <;> simp [hp]

theorem satisfies_savePolicyLine (ptype : String) (rule : List String) (r : casBinRule) :
    satisfies (rawDeleteConds (savePolicyLine ptype rule)) r = removeMatches ptype rule r := by
  rw [Bool.eq_iff_iff, satisfies_rawDeleteConds, removeMatches_iff, savePolicyLine_ptype]
  refine and_congr_right (fun _ => forall_congr' (fun i => imp_congr_right (fun hi => ?_)))
  rw [savePolicyLine_field ptype rule i hi]
  by_cases h : i < rule.length
  · simp [h, List.getElem?_eq_getElem]
  · simp [h, List.getElem?_eq_none (Nat.le_of_not_lt h)]

theorem rawDelete_ok (line : casBinRule) (t : List casBinRule) (db : DB)
    (hexists : db.table = some t) (hok : db.faults.head? ≠ some true) :
    rawDelete line db =
      (none, ⟨some (t.filter (fun r => !satisfies (rawDeleteConds line) r)), db.faults.tail,
        db.log ++ [.delete (rawDeleteConds line)]⟩) :=
  exec_ok db _ _ hok (by rw [hexists]; rfl)

theorem wrapInt64_id (x : Int) (h1 : -9223372036854775808 ≤ x) (h2 : x < 9223372036854775808) :
    wrapInt64 x = x := by
  unfold wrapInt64
  omega

theorem sliceAt_of_lt (fieldValues : List String) (k : Int) (h0 : 0 ≤ k)
    (h1 : k < fieldValues.length) :
    sliceAt fieldValues k = some (fieldValues.getD k.toNat "") := by
  have h2 : k.toNat < fieldValues.length := by omega
  simp [sliceAt, h0, h1, List.getD_eq_getElem?_getD, List.getElem?_eq_getElem h2]

/-- One guarded assignment never panics when `fieldIndex` and the length are
Go `int`s: the guard implies that the index is in range. -/
theorem setFrom_total (i fieldIndex : Int) (fieldValues : List String)
    (set : String → casBinRule) (line : casBinRule)
    (hi0 : 0 ≤ i) (hi5 : i ≤ 5)
    (hlo : -9223372036854775808 ≤ fieldIndex) (hhi : fieldIndex < 9223372036854775808)
    (hlen : (fieldValues.length : Int) < 9223372036854775808) :
    setFrom i fieldIndex fieldValues set line =
      some (if fieldIndex ≤ i ∧ i < wrapInt64 (fieldIndex + fieldValues.length) then
        set (fieldValues.getD (i - fieldIndex).toNat "") else line) := by
  unfold setFrom
  by_cases hg : fieldIndex ≤ i ∧ i < wrapInt64 (fieldIndex + fieldValues.length)
  · have hsum : i < fieldIndex + fieldValues.length := by
      have := hg.2
      unfold wrapInt64 at this
      omega
    have hw : wrapInt64 (i - fieldIndex) = i - fieldIndex :=
      wrapInt64_id _ (by omega) (by omega)
    rw [if_pos hg, if_pos hg, hw, sliceAt_of_lt _ _ (by omega) (by omega)]
    rfl
  · rw [if_neg hg, if_neg hg]

theorem accessed_in_range (fieldIndex : Int) (fieldValues : List String)
    (hlo : -9223372036854775808 ≤ fieldIndex)
    (hlen : (fieldValues.length : Int) < 9223372036854775808) :
    ∀ k, k ∈ accessed fieldIndex fieldValues → 0 ≤ k ∧ k < fieldValues.length := by
  intro k hk
  simp only [accessed, List.mem_filterMap, List.mem_range] at hk
  obtain ⟨i, hi, h⟩ := hk
  split at h
  · rename_i hg
    simp only [Option.some.injEq] at h
    subst h
    have := hg.2
    unfold wrapInt64 at this ⊢
    omega
  · simp at h

/-- The filter row in closed form, for Go `int` arguments. -/
theorem filterLine_eq (ptype : String) (fieldIndex : Int) (fieldValues : List String)
    (hlo : -9223372036854775808 ≤ fieldIndex) (hhi : fieldIndex < 9223372036854775808)
    (hlen : (fieldValues.length : Int) < 9223372036854775808) :
    filterLine ptype fieldIndex fieldValues =
      some ⟨ptype,
        if fieldIndex ≤ 0 ∧ 0 < wrapInt64 (fieldIndex + fieldValues.length) then
          fieldValues.getD (0 - fieldIndex).toNat "" else "",
        if fieldIndex ≤ 1 ∧ 1 < wrapInt64 (fieldIndex + fieldValues.length) then
          fieldValues.getD (1 - fieldIndex).toNat "" else "",
        if fieldIndex ≤ 2 ∧ 2 < wrapInt64 (fieldIndex + fieldValues.length) then
          fieldValues.getD (2 - fieldIndex).toNat "" else "",
        if fieldIndex ≤ 3 ∧ 3 < wrapInt64 (fieldIndex + fieldValues.length) then
          fieldValues.getD (3 - fieldIndex).toNat "" else "",
        if fieldIndex ≤ 4 ∧ 4 < wrapInt64 (fieldIndex + fieldValues.length) then
          fieldValues.getD (4 - fieldIndex).toNat "" else "",
        if fieldIndex ≤ 5 ∧ 5 < wrapInt64 (fieldIndex + fieldValues.length) then
          fieldValues.getD (5 - fieldIndex).toNat "" else ""⟩ := by
  simp only [filterLine, casBinRule.zero, bind, pure,
    setFrom_total 0 fieldIndex fieldValues _ _ (by omega) (by omega) hlo hhi hlen,
    setFrom_total 1 fieldIndex fieldValues _ _ (by omega) (by omega) hlo hhi hlen,
    setFrom_total 2 fieldIndex fieldValues _ _ (by omega) (by omega) hlo hhi hlen,
    setFrom_total 3 fieldIndex fieldValues _ _ (by omega) (by omega) hlo hhi hlen,
    setFrom_total 4 fieldIndex fieldValues _ _ (by omega) (by omega) hlo hhi hlen,
    setFrom_total 5 fieldIndex fieldValues _ _ (by omega) (by omega) hlo hhi hlen,
    Option.bind]
  congr 1
  split_ifs <;> rfl

theorem guard_iff (i fieldIndex : Int) (n : Nat) (hi5 : i ≤ 5)
    (hlo : -9223372036854775808 ≤ fieldIndex) (hlen : (n : Int) + 5 < 9223372036854775808) :
    (fieldIndex ≤ i ∧ i < wrapInt64 (fieldIndex + n)) ↔ (fieldIndex ≤ i ∧ i < fieldIndex + n) := by
  unfold wrapInt64
  constructor <;> rintro ⟨h1, h2⟩ <;> exact ⟨h1, by omega⟩

theorem filterValue_getD (fieldIndex : Int) (fieldValues : List String) (i : Nat) (hi : i < 6)
    (hlo : -9223372036854775808 ≤ fieldIndex)
    (hlen : (fieldValues.length : Int) + 5 < 9223372036854775808) :
    (filterValue fieldIndex fieldValues i).getD "" =
      if fieldIndex ≤ (i : Int) ∧ (i : Int) < wrapInt64 (fieldIndex + fieldValues.length) then
        fieldValues.getD ((i : Int) - fieldIndex).toNat "" else "" := by
  unfold filterValue
  by_cases hg : fieldIndex ≤ (i : Int) ∧ (i : Int) < fieldIndex + fieldValues.length
  · rw [if_pos hg, if_pos ((guard_iff i fieldIndex _ (by omega) hlo hlen).2 hg)]
    simp [List.getD_eq_getElem?_getD]
  · rw [if_neg hg, if_neg (fun h => hg ((guard_iff i fieldIndex _ (by omega) hlo hlen).1 h))]
    rfl

theorem filterLine_spec (ptype : String) (fieldIndex : Int) (fieldValues : List String)
    (hlo : -9223372036854775808 ≤ fieldIndex) (hhi : fieldIndex < 9223372036854775808)
    (hlen : (fieldValues.length : Int) + 5 < 9223372036854775808) :
    ∃ line, filterLine ptype fieldIndex fieldValues = some line ∧ line.PType = ptype ∧
      ∀ i, i < 6 → line.field i = (filterValue fieldIndex fieldValues i).getD "" := by
  refine ⟨_, filterLine_eq ptype fieldIndex fieldValues hlo hhi (by omega), rfl, ?_⟩
  intro i hi
  rw [filterValue_getD fieldIndex fieldValues i hi hlo hlen]
  interval_cases i <;> simp [casBinRule.field]

theorem satisfies_of_fields (line r : casBinRule) (ptype : String) (f : Nat → Option String)
    (hp : line.PType = ptype) (hf : ∀ i, i < 6 → line.field i = (f i).getD "") :
    satisfies (rawDeleteConds line) r = true ↔
      r.PType = ptype ∧ ∀ i, i < 6 → ∀ v, f i = some v → v ≠ "" → r.field i = v := by
  rw [satisfies_rawDeleteConds, hp]
  refine and_congr_right (fun _ => forall_congr' (fun i => imp_congr_right (fun hi => ?_)))
  rw [hf i hi]
  rcases f i with _ | v <;> simp

theorem savePolicyLine_eq (ptype : String) (rule : List String) :
    savePolicyLine ptype rule =
      ⟨ptype, if rule.length > 0 then idx rule 0 else "",
        if rule.length > 1 then idx rule 1 else "",
        if rule.length > 2 then idx rule 2 else "",
        if rule.length > 3 then idx rule 3 else "",
        if rule.length > 4 then idx rule 4 else "",
        if rule.length > 5 then idx rule 5 else ""⟩ := by
  simp only [savePolicyLine, casBinRule.zero]
  split_ifs <;> rfl

theorem zero_guard (i : Int) (n : Nat) (hi0 : 0 ≤ i) (hn : (n : Int) < 9223372036854775808) :
    ((0 : Int) ≤ i ∧ i < wrapInt64 (0 + n)) ↔ n > i := by
  unfold wrapInt64
  constructor
  · rintro ⟨_, h⟩
    omega
  · intro h
    exact ⟨hi0, by omega⟩

theorem filterLine_zero (ptype : String) (xs : List String)
    (hlen : (xs.length : Int) < 9223372036854775808) :
    filterLine ptype 0 xs = some (savePolicyLine ptype xs) := by
  rw [filterLine_eq ptype 0 xs (by omega) (by omega) hlen, savePolicyLine_eq]
  simp only [zero_guard _ _ (le_refl 0) hlen, zero_guard 1 _ (by omega) hlen,
    zero_guard 2 _ (by omega) hlen, zero_guard 3 _ (by omega) hlen,
    zero_guard 4 _ (by omega) hlen, zero_guard 5 _ (by omega) hlen, idx]
  congr 2 <;> simp

/-! ## Lemmas on the table invariant -/

theorem savePolicyLine_field_getD (ptype : String) (rule : List String) (i : Nat) (hi : i < 6) :
    (savePolicyLine ptype rule).field i = rule.getD i "" := by
  rw [savePolicyLine_field ptype rule i hi]
  by_cases h : i < rule.length
  · simp [h, List.getD_eq_getElem?_getD, List.getElem?_eq_getElem h]
  · simp [h, List.getD_eq_getElem?_getD, List.getElem?_eq_none (Nat.le_of_not_lt h)]

theorem rowInv_savePolicyLine (ptype : String) (rule : List String) :
    rowInv (savePolicyLine ptype rule) ↔ ruleContiguous rule := by
  unfold rowInv ruleContiguous
  refine forall_congr' (fun j => imp_congr_right (fun hj => forall_congr' (fun i =>
    imp_congr_right (fun hi => ?_))))
  rw [savePolicyLine_field_getD ptype rule i (by omega), savePolicyLine_field_getD ptype rule j hj]

theorem exec_inv (db : DB) (req : Request) (h : tableInv db)
    (hreq : ∀ line, req = .insert line → rowInv line) : tableInv (db.exec req).2 := by
  rcases exec_table_cases db req with he | he
  · intro r hr
    rw [he] at hr
    exact h r hr
  · intro r hr
    rcases hd : db.table with _ | t
    · rw [hd] at he
      cases req
      all_goals simp only [effect, Option.some.injEq] at he
      all_goals try exact absurd he (by simp)
      rw [← he] at hr
      simp at hr
    · rw [hd] at he
      have ht : ∀ x, x ∈ t → rowInv x := fun x hx => h x (by simp [hd, hx])
      cases req
      all_goals simp only [effect, Option.some.injEq] at he
      all_goals rw [← he] at hr
      · simp at hr
      · exact ht r (by simpa using hr)
      · rename_i line
        simp only [Option.getD_some, List.mem_append, List.mem_singleton] at hr
        rcases hr with hr | hr
        · exact ht r hr
        · exact hr ▸ hreq line rfl
      · simp only [Option.getD_some, List.mem_filter] at hr
        exact ht r hr.1
      · exact ht r (by simpa using hr)

theorem runPlan_inv (plan : List Request) (db : DB) (h : tableInv db)
    (hplan : ∀ line, Request.insert line ∈ plan → rowInv line) :
    tableInv (runPlan plan db).2 := by
  induction plan generalizing db with
  | nil => exact h
  | cons req rest ih =>
    have h1 := exec_inv db req h (fun line hl => hplan line (by simp [hl]))
    simp only [runPlan]
    rcases hx : db.exec req with ⟨_ | err, db1⟩
    · rw [hx] at h1
      exact ih db1 h1 (fun line hl => hplan line (by simp [hl]))
    · rw [hx] at h1
      exact h1

theorem mem_sectionRows (sec : AssertionMap) (line : casBinRule) (h : line ∈ sectionRows sec) :
    ∃ e, e ∈ sec ∧ ∃ rule, rule ∈ e.2.Policy ∧ line = savePolicyLine e.1 rule := by
  rw [sectionRows_eq_flatMap] at h
  simp only [List.mem_flatMap, List.mem_map] at h
  obtain ⟨e, he, rule, hr, rfl⟩ := h
  exact ⟨e, he, rule, hr, rfl⟩

/-! ## Lemmas on loading -/

theorem lineText_savePolicyLine (ptype : String) (rule : List String)
    (hlen : rule.length ≤ 6) (hne : ∀ p, p ∈ rule → p ≠ "") :
    lineText (savePolicyLine ptype rule) = joinedLine ptype rule := by
  match rule with
  | [] => rfl
  | [a] => simp_all [savePolicyLine, casBinRule.zero, idx, lineText, joinedLine]
  | [a, b] => simp_all [savePolicyLine, casBinRule.zero, idx, lineText, joinedLine]
  | [a, b, c] => simp_all [savePolicyLine, casBinRule.zero, idx, lineText, joinedLine]
  | [a, b, c, d] => simp_all [savePolicyLine, casBinRule.zero, idx, lineText, joinedLine]
  | [a, b, c, d, e] => simp_all [savePolicyLine, casBinRule.zero, idx, lineText, joinedLine]
  | [a, b, c, d, e, f] => simp_all [savePolicyLine, casBinRule.zero, idx, lineText, joinedLine]
  | _ :: _ :: _ :: _ :: _ :: _ :: _ :: _ => simp at hlen

theorem joinedLine_data (ptype : String) (rule : List String) :
    (joinedLine ptype rule).data =
      ptype.data ++ (rule.map String.data).flatMap (fun p => ',' :: ' ' :: p) := by
  unfold joinedLine
  induction rule generalizing ptype with
  | nil => simp
  | cons a rest ih =>
    rw [List.foldl_cons, ih]
    simp [String.data_append]

theorem splitComma_of_not_mem (a : List Char) (h : ',' ∉ a) : splitComma a = [a] := by
  induction a with
  | nil => rfl
  | cons c cs ih =>
    simp only [List.mem_cons, not_or] at h
    have hc : c ≠ ',' := fun e => h.1 e.symm
    simp [splitComma, hc, ih h.2]

theorem splitComma_append (a rest : List Char) (h : ',' ∉ a) :
    splitComma (a ++ ',' :: rest) = a :: splitComma rest := by
  induction a with
  | nil => simp [splitComma]
  | cons c cs ih =>
    simp only [List.mem_cons, not_or] at h
    have hc : c ≠ ',' := fun e => h.1 e.symm
    simp [splitComma, hc, ih h.2]

theorem splitComma_joined (pre : List Char) (ps : List (List Char)) (hpre : ',' ∉ pre)
    (hps : ∀ p, p ∈ ps → ',' ∉ p) :
    splitComma (pre ++ ps.flatMap (fun p => ',' :: ' ' :: p)) =
      pre :: ps.map (fun p => ' ' :: p) := by
  induction ps generalizing pre with
  | nil => simpa using splitComma_of_not_mem pre hpre
  | cons p rest ih =>
    have hp : ',' ∉ ' ' :: p := by
      simp only [List.mem_cons, not_or]
      exact ⟨by decide, hps p (by simp)⟩
    have := ih (' ' :: p) hp (fun q hq => hps q (by simp [hq]))
    simp only [List.flatMap_cons, List.map_cons]
    rw [show pre ++ (',' :: ' ' :: p ++ rest.flatMap (fun p => ',' :: ' ' :: p)) =
      pre ++ ',' :: (' ' :: p ++ rest.flatMap (fun p => ',' :: ' ' :: p)) from rfl,
      splitComma_append pre _ hpre, this]

theorem trimSpace_space_cons (p : List Char) : trimSpace (' ' :: p) = trimSpace p := by
  have h : isSpace ' ' = true := by decide
  simp [trimSpace, List.dropWhile, h]

/-- A clean rule type and a clean rule of at most six parameters come back
from the line text unchanged. -/
theorem parseLine_lineText (ptype : String) (rule : List String)
    (htype : cleanType ptype) (hlen : rule.length ≤ 6) (hrule : ∀ p, p ∈ rule → cleanParam p) :
    parseLine (lineText (savePolicyLine ptype rule)) = (ptype, rule) := by
  rw [lineText_savePolicyLine ptype rule hlen (fun p hp => (hrule p hp).1)]
  unfold parseLine
  rw [joinedLine_data, splitComma_joined _ _ htype.1 (by
    intro q hq
    simp only [List.mem_map] at hq
    obtain ⟨p, hp, rfl⟩ := hq
    exact (hrule p hp).2.1)]
  simp only [List.map_cons, List.map_map, htype.2]
  congr 1
  induction rule with
  | nil => rfl
  | cons a rest ih =>
    simp only [List.map_cons, Function.comp, trimSpace_space_cons]
    rw [(hrule a (by simp)).2.2]
    congr 1
    exact ih (by simp at hlen; omega) (fun p hp => hrule p (by simp [hp]))

theorem loadLines_eq (rows : List casBinRule) (model : Loaded) :
    loadLines rows model = model ++ rows.map (fun line => parseLine (lineText line)) := by
  induction rows generalizing model with
  | nil => simp [loadLines]
  | cons line rest ih =>
    simp [loadLines, ih, loadPolicyLine, persistLoadPolicyLine]

theorem sectionRows_parse (sec : AssertionMap)
    (hclean : ∀ e, e ∈ sec → cleanType e.1 ∧
      ∀ rule, rule ∈ e.2.Policy → rule.length ≤ 6 ∧ ∀ p, p ∈ rule → cleanParam p)
    (ptype : String) :
    Loaded.tuplesOf ((sectionRows sec).map (fun line => parseLine (lineText line))) ptype =
      sectionTuples ptype sec := by
  induction sec with
  | nil => rfl
  | cons e rest ih =>
    obtain ⟨key, ast⟩ := e
    have he := hclean (key, ast) (by simp)
    have hmap : (ast.Policy.map (savePolicyLine key)).map
        (fun line => parseLine (lineText line)) = ast.Policy.map (fun rule => (key, rule)) := by
      rw [List.map_map]
      refine List.map_congr_left (fun rule hr => ?_)
      exact parseLine_lineText key rule he.1 (he.2 rule hr).1 (he.2 rule hr).2
    have ih1 := ih (fun e1 h1 => hclean e1 (by simp [h1]))
    unfold Loaded.tuplesOf at ih1 ⊢
    simp only [sectionRows, sectionTuples, List.map_append, List.filter_append, hmap, ih1]
    congr 1
    by_cases hk : key = ptype
    · simp [hk, List.filter_map, Function.comp_def]
    · simp [hk, List.filter_map, Function.comp_def]

theorem modelRows_parse (model : Model)
    (hclean : ∀ e, e ∈ model.sec "p" ++ model.sec "g" → cleanType e.1 ∧
      ∀ rule, rule ∈ e.2.Policy → rule.length ≤ 6 ∧ ∀ p, p ∈ rule → cleanParam p)
    (ptype : String) :
    Loaded.tuplesOf ((modelRows model).map (fun line => parseLine (lineText line))) ptype =
      model.tuplesOf ptype := by
  have h1 := sectionRows_parse (model.sec "p") (fun e he => hclean e (by simp [he])) ptype
  have h2 := sectionRows_parse (model.sec "g") (fun e he => hclean e (by simp [he])) ptype
  unfold Loaded.tuplesOf at h1 h2 ⊢
  simp only [modelRows, Model.tuplesOf, List.map_append, List.filter_append, h1, h2]

/-! ## The claims -/

/-- C5: for every prior table content and every model, a `SavePolicy` in which
no database request fails returns no error and leaves a table that holds
exactly one row per rule of the "p" and "g" sections and nothing of the prior
content: the rows of section "p" come before those of section "g", and within
a rule type the rows follow the rule list; the row count is the total number of
rules of the two sections. Conversely, whenever `SavePolicy` returns no error
the table is that serialisation. -/
theorem SavePolicy_replaces_table (model : Model) (t : List casBinRule) (db : DB)
    (hexists : db.table = some t)
    (hfaults : true ∉ db.faults.take (savePlan model).length) :
    SavePolicy model db =
        (none, ⟨some ((model.sec "p").flatMap (fun e => e.2.Policy.map (savePolicyLine e.1)) ++
                      (model.sec "g").flatMap (fun e => e.2.Policy.map (savePolicyLine e.1))),
                db.faults.drop (savePlan model).length, db.log ++ savePlan model⟩) ∧
      ((model.sec "p").flatMap (fun e => e.2.Policy.map (savePolicyLine e.1)) ++
          (model.sec "g").flatMap (fun e => e.2.Policy.map (savePolicyLine e.1))).length =
        ((model.sec "p").map (fun e => e.2.Policy.length)).sum +
          ((model.sec "g").map (fun e => e.2.Policy.length)).sum ∧
      ∀ db0 : DB, (SavePolicy model db0).1 = none →
        (SavePolicy model db0).2.table =
          some ((model.sec "p").flatMap (fun e => e.2.Policy.map (savePolicyLine e.1)) ++
                (model.sec "g").flatMap (fun e => e.2.Policy.map (savePolicyLine e.1))) := by
  have hrows : (model.sec "p").flatMap (fun e => e.2.Policy.map (savePolicyLine e.1)) ++
      (model.sec "g").flatMap (fun e => e.2.Policy.map (savePolicyLine e.1)) = modelRows model := by
    simp [modelRows, sectionRows_eq_flatMap]
  rw [hrows]
  refine ⟨?_, ?_, ?_⟩
  · rw [SavePolicy_eq]
    exact runPlan_ok _ db _ (getD_of_not_mem_take _ _ hfaults)
      (by rw [hexists]; exact tableAfter_savePlan model t)
  · simp [modelRows, sectionRows_length, sectionCount_eq_sum]
  · intro db0 h
    rw [SavePolicy_eq] at h ⊢
    have h1 := (runPlan_none _ db0 h).1
    rcases hd : db0.table with _ | t0
    · rw [hd, tableAfter_savePlan_none] at h1
      exact absurd h1 (by simp)
    · rw [hd, tableAfter_savePlan] at h1
      simpa using h1.symm

/-- C5, at a table with one old row and a model with two "p" rules and one
"g" rule. -/
theorem SavePolicy_replaces_table_witness :
    (DB.mk (some [⟨"p", "old", "", "", "", "", ""⟩]) [] []).table =
        some [⟨"p", "old", "", "", "", "", ""⟩] ∧
      true ∉ (DB.mk (some [⟨"p", "old", "", "", "", "", ""⟩]) [] []).faults.take
        (savePlan [("g", [("g", ⟨[["alice", "admin"]]⟩)]),
          ("p", [("p", ⟨[["alice", "data1", "read"], ["bob", "data2", "write"]]⟩)])]).length ∧
      (SavePolicy [("g", [("g", ⟨[["alice", "admin"]]⟩)]),
          ("p", [("p", ⟨[["alice", "data1", "read"], ["bob", "data2", "write"]]⟩)])]
        (DB.mk (some [⟨"p", "old", "", "", "", "", ""⟩]) [] [])).2.table =
        some [⟨"p", "alice", "data1", "read", "", "", ""⟩,
          ⟨"p", "bob", "data2", "write", "", "", ""⟩,
          ⟨"g", "alice", "admin", "", "", "", ""⟩] :=
  ⟨rfl, by decide,
    by
      rw [(SavePolicy_replaces_table _ [⟨"p", "old", "", "", "", "", ""⟩]
        (DB.mk (some [⟨"p", "old", "", "", "", "", ""⟩]) [] []) rfl (by decide)).1]
      decide⟩

/-- C6: `SavePolicy` is fail-fast and not atomic. When the request number `k`
of the call (0 the drop, 1 the create, `k` from 2 on the insert of row
`k - 2`) is the first that fails, `SavePolicy` returns the error of that
request, the requests issued are exactly those up to it, and the table is: as
it was when the drop failed, absent when the create failed, and exactly the
rows inserted before the failing insert (none of the prior rows) otherwise. -/
theorem SavePolicy_fail_fast (model : Model) (t : List casBinRule) (db : DB) (k : Nat)
    (hexists : db.table = some t)
    (hk : k < (savePlan model).length)
    (hbefore : true ∉ db.faults.take k)
    (hfail : db.faults[k]? = some true) :
    SavePolicy model db =
      (some (.failed (savePlan model)[k]),
        ⟨if k = 0 then some t else if k = 1 then none
            else some ((modelRows model).take (k - 2)),
          db.faults.drop (k + 1), db.log ++ (savePlan model).take (k + 1)⟩) := by
  rw [SavePolicy_eq]
  exact runPlan_fail _ db _ k hk (getD_of_not_mem_take _ _ hbefore)
    (getD_of_getElem? _ _ hfail)
    (by rw [hexists]; exact tableAfter_savePlan_take model t k)

/-- C6, at a model with three rules whose second insert fails: the table is
left with the first rule only. -/
theorem SavePolicy_fail_fast_witness :
    (DB.mk (some [⟨"p", "old", "", "", "", "", ""⟩]) [false, false, false, true] []).table =
        some [⟨"p", "old", "", "", "", "", ""⟩] ∧
      3 < (savePlan [("p", [("p", ⟨[["alice", "data1", "read"], ["bob", "data2", "write"]]⟩)]),
        ("g", [("g", ⟨[["alice", "admin"]]⟩)])]).length ∧
      true ∉ (DB.mk (some [⟨"p", "old", "", "", "", "", ""⟩])
        [false, false, false, true] []).faults.take 3 ∧
      (DB.mk (some [⟨"p", "old", "", "", "", "", ""⟩])
        [false, false, false, true] []).faults[3]? = some true ∧
      SavePolicy [("p", [("p", ⟨[["alice", "data1", "read"], ["bob", "data2", "write"]]⟩)]),
          ("g", [("g", ⟨[["alice", "admin"]]⟩)])]
        (DB.mk (some [⟨"p", "old", "", "", "", "", ""⟩]) [false, false, false, true] []) =
        (some (.failed (.insert ⟨"p", "bob", "data2", "write", "", "", ""⟩)),
          ⟨some [⟨"p", "alice", "data1", "read", "", "", ""⟩], [],
            [.drop, .create, .insert ⟨"p", "alice", "data1", "read", "", "", ""⟩,
              .insert ⟨"p", "bob", "data2", "write", "", "", ""⟩]⟩) :=
  ⟨rfl, by decide, by decide, by decide,
    by
      rw [SavePolicy_fail_fast _ [⟨"p", "old", "", "", "", "", ""⟩]
        (DB.mk (some [⟨"p", "old", "", "", "", "", ""⟩]) [false, false, false, true] []) 3
        rfl (by decide) (by decide) (by decide)]
      decide⟩

/-- C4: a successful `AddPolicy` found the table in place and leaves it equal
to the old table plus exactly one new row; the row's `ptype` is the rule type,
its field `vi` (`i` in `0..5`) is `parameters[i]` when `i < len(parameters)`
and the empty string otherwise, parameters from index 6 on do not change it,
and a second successful `AddPolicy` of the same rule adds a second, identical
row (no duplicate detection). -/
theorem AddPolicy_appends_one_row (sec ptype : String) (rule : List String) (db : DB)
    (hsucc : (AddPolicy sec ptype rule db).1 = none) :
    (∃ t, db.table = some t ∧
      (AddPolicy sec ptype rule db).2.table = some (t ++ [savePolicyLine ptype rule]) ∧
      ((AddPolicy sec ptype rule (AddPolicy sec ptype rule db).2).1 = none →
        (AddPolicy sec ptype rule (AddPolicy sec ptype rule db).2).2.table =
          some (t ++ [savePolicyLine ptype rule, savePolicyLine ptype rule]))) ∧
      (savePolicyLine ptype rule).PType = ptype ∧
      (∀ i, i < 6 → (savePolicyLine ptype rule).field i =
        if h : i < rule.length then rule[i] else "") ∧
      savePolicyLine ptype rule = savePolicyLine ptype (rule.take 6) := by
  refine ⟨?_, savePolicyLine_ptype ptype rule, savePolicyLine_field ptype rule,
    savePolicyLine_take ptype rule⟩
  have h1 := exec_none db _ hsucc
  rcases hd : db.table with _ | t
  · rw [hd] at h1
    simp [effect] at h1
  · rw [hd] at h1
    simp only [effect, Option.some.injEq] at h1
    refine ⟨t, rfl, h1.symm, ?_⟩
    intro h2
    have h3 := exec_none _ _ h2
    rw [show (AddPolicy sec ptype rule db).2.table = _ from h1.symm] at h3
    simp only [effect, Option.some.injEq] at h3
    rw [show (AddPolicy sec ptype rule (AddPolicy sec ptype rule db).2).2.table = _ from h3.symm]
    simp

/-- C4, at a rule of eight parameters added to a table of one row. -/
theorem AddPolicy_appends_one_row_witness :
    (AddPolicy "p" "p" ["a", "b", "c", "d", "e", "f", "g", "h"]
        (DB.mk (some [⟨"p", "alice", "data1", "read", "", "", ""⟩]) [] [])).1 = none ∧
      (AddPolicy "p" "p" ["a", "b", "c", "d", "e", "f", "g", "h"]
        (DB.mk (some [⟨"p", "alice", "data1", "read", "", "", ""⟩]) [] [])).2.table =
        some [⟨"p", "alice", "data1", "read", "", "", ""⟩, ⟨"p", "a", "b", "c", "d", "e", "f"⟩] :=
  ⟨by decide,
    by
      obtain ⟨t, ht, h, _⟩ := (AddPolicy_appends_one_row "p" "p"
        ["a", "b", "c", "d", "e", "f", "g", "h"]
        (DB.mk (some [⟨"p", "alice", "data1", "read", "", "", ""⟩]) [] []) (by decide)).1
      rw [h]
      cases ht
      decide⟩

/-- C2: on an existing table, a `RemovePolicy(section, ruleType, parameters)`
that the database does not fail returns no error (also when no row matches)
and removes exactly the rows `r` with `r.ptype = ruleType` and, for every
position `i` in `0..5` whose parameter exists and is not empty,
`r.vi = parameters[i]`; the other rows stay, unchanged and in their order.
From rows (p,alice,data1,read) and (p,bob,data2,write), removing
[alice,data1,read] leaves the second row; from rows (p,alice,"",read) and
(p,alice,data9,read), removing [alice,"",read] removes both. -/
theorem RemovePolicy_removes_matching (sec ptype : String) (rule : List String)
    (t : List casBinRule) (db : DB)
    (hexists : db.table = some t) (hok : db.faults.head? ≠ some true) :
    RemovePolicy sec ptype rule db =
        (none, ⟨some (t.filter (fun r => !removeMatches ptype rule r)), db.faults.tail,
          db.log ++ [.delete (rawDeleteConds (savePolicyLine ptype rule))]⟩) ∧
      (∀ r, removeMatches ptype rule r = true ↔
        r.PType = ptype ∧
          ∀ i, i < 6 → ∀ p, rule[i]? = some p → p ≠ "" → r.field i = p) ∧
      (RemovePolicy "p" "p" ["alice", "data1", "read"]
          ⟨some [⟨"p", "alice", "data1", "read", "", "", ""⟩,
            ⟨"p", "bob", "data2", "write", "", "", ""⟩], [], []⟩).2.table =
        some [⟨"p", "bob", "data2", "write", "", "", ""⟩] ∧
      (RemovePolicy "p" "p" ["alice", "", "read"]
          ⟨some [⟨"p", "alice", "", "read", "", "", ""⟩,
            ⟨"p", "alice", "data9", "read", "", "", ""⟩], [], []⟩).2.table = some [] := by
  refine ⟨?_, removeMatches_iff ptype rule, by decide, by decide⟩
  rw [RemovePolicy, rawDelete_ok _ t db hexists hok]
  simp only [satisfies_savePolicyLine]

/-- C2, at a table of three rows none of which matches: the call succeeds and
the table is unchanged. -/
theorem RemovePolicy_removes_matching_witness :
    (DB.mk (some [⟨"p", "alice", "data1", "read", "", "", ""⟩,
        ⟨"p", "bob", "data2", "write", "", "", ""⟩,
        ⟨"g", "alice", "admin", "", "", "", ""⟩]) [] []).table =
        some [⟨"p", "alice", "data1", "read", "", "", ""⟩,
          ⟨"p", "bob", "data2", "write", "", "", ""⟩,
          ⟨"g", "alice", "admin", "", "", "", ""⟩] ∧
      (DB.mk (some [⟨"p", "alice", "data1", "read", "", "", ""⟩,
        ⟨"p", "bob", "data2", "write", "", "", ""⟩,
        ⟨"g", "alice", "admin", "", "", "", ""⟩]) [] []).faults.head? ≠ some true ∧
      ((RemovePolicy "p" "p" ["carol", "data1"]
        (DB.mk (some [⟨"p", "alice", "data1", "read", "", "", ""⟩,
          ⟨"p", "bob", "data2", "write", "", "", ""⟩,
          ⟨"g", "alice", "admin", "", "", "", ""⟩]) [] [])).1 = none ∧
        (RemovePolicy "p" "p" ["carol", "data1"]
          (DB.mk (some [⟨"p", "alice", "data1", "read", "", "", ""⟩,
            ⟨"p", "bob", "data2", "write", "", "", ""⟩,
            ⟨"g", "alice", "admin", "", "", "", ""⟩]) [] [])).2.table =
          some [⟨"p", "alice", "data1", "read", "", "", ""⟩,
            ⟨"p", "bob", "data2", "write", "", "", ""⟩,
            ⟨"g", "alice", "admin", "", "", "", ""⟩]) :=
  ⟨rfl, by decide,
    by
      have h := (RemovePolicy_removes_matching "p" "p" ["carol", "data1"]
        [⟨"p", "alice", "data1", "read", "", "", ""⟩,
          ⟨"p", "bob", "data2", "write", "", "", ""⟩,
          ⟨"g", "alice", "admin", "", "", "", ""⟩]
        (DB.mk (some [⟨"p", "alice", "data1", "read", "", "", ""⟩,
          ⟨"p", "bob", "data2", "write", "", "", ""⟩,
          ⟨"g", "alice", "admin", "", "", "", ""⟩]) [] []) rfl (by decide)).1
      rw [h]
      exact ⟨rfl, by decide⟩⟩

/-- C3: for every Go `int` `fieldIndex` and every `fieldValues` slice,
`RemoveFilteredPolicy` builds a filter row whose rule type is `ruleType` and
whose position `i` of `0..5` carries `fieldValues[i - fieldIndex]` when
`fieldIndex <= i < fieldIndex + len(fieldValues)` and no constraint (the empty
string) otherwise; on an existing table, when the database does not fail the
request, it returns no error and deletes exactly the rows with
`ptype = ruleType` that are equal to the filter at every position whose filter
value is not empty, leaving every other row untouched and in place. With
`fieldIndex = 1` and `fieldValues = ["data1"]` under rule type "p" it deletes
the "p" rows with `v1 = "data1"`, whatever their `v0`, and no other row. -/
theorem RemoveFilteredPolicy_removes_matching (sec ptype : String) (fieldIndex : Int)
    (fieldValues : List String) (t : List casBinRule) (db : DB)
    (hlo : -9223372036854775808 ≤ fieldIndex) (hhi : fieldIndex < 9223372036854775808)
    (hlen : (fieldValues.length : Int) + 5 < 9223372036854775808)
    (hexists : db.table = some t) (hok : db.faults.head? ≠ some true) :
    (∃ line, filterLine ptype fieldIndex fieldValues = some line ∧ line.PType = ptype ∧
      (∀ i : Nat, i < 6 → line.field i =
        if fieldIndex ≤ i ∧ (i : Int) < fieldIndex + fieldValues.length then
          fieldValues.getD ((i : Int) - fieldIndex).toNat "" else "") ∧
      RemoveFilteredPolicy sec ptype fieldIndex fieldValues db =
        some (none, ⟨some (t.filter (fun r => !filteredMatches ptype fieldIndex fieldValues r)),
          db.faults.tail, db.log ++ [.delete (rawDeleteConds line)]⟩)) ∧
      (∀ r, filteredMatches ptype fieldIndex fieldValues r = true ↔
        r.PType = ptype ∧
          ∀ i : Nat, i < 6 → fieldIndex ≤ i → (i : Int) < fieldIndex + fieldValues.length →
            fieldValues.getD ((i : Int) - fieldIndex).toNat "" ≠ "" →
              r.field i = fieldValues.getD ((i : Int) - fieldIndex).toNat "") ∧
      (∀ t0 : List casBinRule,
        RemoveFilteredPolicy "p" "p" 1 ["data1"] ⟨some t0, [], []⟩ =
          some (none, ⟨some (t0.filter (fun r => !(r.PType == "p" && r.V1 == "data1"))), [],
            [.delete [(Column.ptype, "p"), (Column.v1, "data1")]]⟩)) := by
  obtain ⟨line, hline, hp, hfield⟩ := filterLine_spec ptype fieldIndex fieldValues hlo hhi hlen
  have hval : ∀ i : Nat, i < 6 → (filterValue fieldIndex fieldValues i).getD "" =
      if fieldIndex ≤ i ∧ (i : Int) < fieldIndex + fieldValues.length then
        fieldValues.getD ((i : Int) - fieldIndex).toNat "" else "" := by
    intro i hi
    rw [filterValue_getD fieldIndex fieldValues i hi hlo hlen]
    by_cases hg : fieldIndex ≤ (i : Int) ∧ (i : Int) < fieldIndex + fieldValues.length
    · rw [if_pos hg, if_pos ((guard_iff i fieldIndex _ (by omega) hlo hlen).2 hg)]
    · rw [if_neg hg, if_neg (fun h => hg ((guard_iff i fieldIndex _ (by omega) hlo hlen).1 h))]
  have hsat : ∀ r, satisfies (rawDeleteConds line) r =
      filteredMatches ptype fieldIndex fieldValues r := by
    intro r
    rw [Bool.eq_iff_iff, satisfies_of_fields line r ptype (filterValue fieldIndex fieldValues)
      hp hfield, filteredMatches_iff]
  refine ⟨⟨line, hline, hp, fun i hi => (hfield i hi).trans (hval i hi), ?_⟩, ?_, ?_⟩
  · rw [RemoveFilteredPolicy, hline, Option.map_some', rawDelete_ok _ t db hexists hok]
    simp only [hsat]
  · intro r
    rw [filteredMatches_iff]
    refine and_congr_right (fun _ => forall_congr' (fun i => imp_congr_right (fun hi => ?_)))
    unfold filterValue
    by_cases hg : fieldIndex ≤ (i : Int) ∧ (i : Int) < fieldIndex + fieldValues.length
    · have hk : ((i : Int) - fieldIndex).toNat < fieldValues.length := by omega
      simp only [if_pos hg, List.getElem?_eq_getElem hk, Option.some.injEq,
        List.getD_eq_getElem?_getD, Option.getD_some]
      constructor
      · intro h _ _ hne
        exact h _ rfl hne
      · rintro h v rfl hne
        exact h hg.1 hg.2 hne
    · simp only [if_neg hg]
      constructor
      · intro _ h1 h2
        exact absurd ⟨h1, h2⟩ hg
      · intro _ v hv
        simp at hv
  · intro t0
    have h1 : filterLine "p" 1 ["data1"] = some ⟨"p", "", "data1", "", "", "", ""⟩ := by decide
    rw [RemoveFilteredPolicy, h1, Option.map_some',
      rawDelete_ok _ t0 ⟨some t0, [], []⟩ rfl (by simp)]
    have h2 : rawDeleteConds ⟨"p", "", "data1", "", "", "", ""⟩ =
        [(Column.ptype, "p"), (Column.v1, "data1")] := by decide
    simp [h2, satisfies, casBinRule.col]

/-- C3, at `fieldIndex = 1`, `fieldValues = ["data1"]` and a table of three
rows: the two "p" rows with `v1 = "data1"` go, the row with `v1 = "data2"`
stays. -/
theorem RemoveFilteredPolicy_removes_matching_witness :
    (-9223372036854775808 : Int) ≤ 1 ∧ (1 : Int) < 9223372036854775808 ∧
      ((["data1"] : List String).length : Int) + 5 < 9223372036854775808 ∧
      (DB.mk (some [⟨"p", "alice", "data1", "read", "", "", ""⟩,
        ⟨"p", "bob", "data2", "write", "", "", ""⟩,
        ⟨"p", "carol", "data1", "write", "", "", ""⟩]) [] []).table =
        some [⟨"p", "alice", "data1", "read", "", "", ""⟩,
          ⟨"p", "bob", "data2", "write", "", "", ""⟩,
          ⟨"p", "carol", "data1", "write", "", "", ""⟩] ∧
      (DB.mk (some [⟨"p", "alice", "data1", "read", "", "", ""⟩,
        ⟨"p", "bob", "data2", "write", "", "", ""⟩,
        ⟨"p", "carol", "data1", "write", "", "", ""⟩]) [] []).faults.head? ≠ some true ∧
      ∃ line, filterLine "p" 1 ["data1"] = some line ∧
        RemoveFilteredPolicy "p" "p" 1 ["data1"]
          (DB.mk (some [⟨"p", "alice", "data1", "read", "", "", ""⟩,
            ⟨"p", "bob", "data2", "write", "", "", ""⟩,
            ⟨"p", "carol", "data1", "write", "", "", ""⟩]) [] []) =
          some (none, ⟨some [⟨"p", "bob", "data2", "write", "", "", ""⟩], [],
            [.delete (rawDeleteConds line)]⟩) :=
  ⟨by decide, by decide, by decide, rfl, by decide,
    by
      obtain ⟨line, h1, _, _, h2⟩ := (RemoveFilteredPolicy_removes_matching "p" "p" 1 ["data1"]
        [⟨"p", "alice", "data1", "read", "", "", ""⟩,
          ⟨"p", "bob", "data2", "write", "", "", ""⟩,
          ⟨"p", "carol", "data1", "write", "", "", ""⟩]
        (DB.mk (some [⟨"p", "alice", "data1", "read", "", "", ""⟩,
          ⟨"p", "bob", "data2", "write", "", "", ""⟩,
          ⟨"p", "carol", "data1", "write", "", "", ""⟩]) [] [])
        (by decide) (by decide) (by decide) rfl (by decide)).1
      refine ⟨line, h1, ?_⟩
      rw [h2]
      have h3 : (List.filter (fun r => !filteredMatches "p" 1 ["data1"] r)
          [⟨"p", "alice", "data1", "read", "", "", ""⟩,
            ⟨"p", "bob", "data2", "write", "", "", ""⟩,
            ⟨"p", "carol", "data1", "write", "", "", ""⟩]) =
          [⟨"p", "bob", "data2", "write", "", "", ""⟩] := by decide
      rw [h3]
      rfl⟩

/-- C9: with `fieldIndex = 0`, the filter row `RemoveFilteredPolicy` builds
from a rule type and any slice `xs` is `savePolicyLine(ruleType, xs)`, so on
every database state `RemoveFilteredPolicy(section, ruleType, 0, xs...)` and
`RemovePolicy(section, ruleType, xs)` send the same request, return the same
error and leave the same table. -/
theorem RemoveFilteredPolicy_zero_eq_RemovePolicy (sec ptype : String) (xs : List String)
    (hlen : (xs.length : Int) < 9223372036854775808) :
    filterLine ptype 0 xs = some (savePolicyLine ptype xs) ∧
      ∀ db : DB, RemoveFilteredPolicy sec ptype 0 xs db = some (RemovePolicy sec ptype xs db) := by
  refine ⟨filterLine_zero ptype xs hlen, fun db => ?_⟩
  rw [RemoveFilteredPolicy, filterLine_zero ptype xs hlen]
  rfl

/-- C9, at a slice of eight values. -/
theorem RemoveFilteredPolicy_zero_eq_RemovePolicy_witness :
    ((["a", "b", "c", "d", "e", "f", "g", "h"] : List String).length : Int)
        < 9223372036854775808 ∧
      filterLine "p" 0 ["a", "b", "c", "d", "e", "f", "g", "h"] =
        some ⟨"p", "a", "b", "c", "d", "e", "f"⟩ :=
  ⟨by decide,
    (RemoveFilteredPolicy_zero_eq_RemovePolicy "p" "p" ["a", "b", "c", "d", "e", "f", "g", "h"]
      (by decide)).1.trans (by decide)⟩

/-- C10: for every Go `int` `fieldIndex` (negative values and values of 6 or
more included) and every `fieldValues` slice (the empty one included), every
index at which `RemoveFilteredPolicy` reads `fieldValues` lies in
`0 .. len(fieldValues) - 1`; no access panics, so the filter row is always
built and the call always reaches the database. -/
theorem RemoveFilteredPolicy_never_panics (sec ptype : String) (fieldIndex : Int)
    (fieldValues : List String)
    (hlo : -9223372036854775808 ≤ fieldIndex) (hhi : fieldIndex < 9223372036854775808)
    (hlen : (fieldValues.length : Int) < 9223372036854775808) :
    (∀ k, k ∈ accessed fieldIndex fieldValues → 0 ≤ k ∧ k < fieldValues.length) ∧
      (filterLine ptype fieldIndex fieldValues).isSome = true ∧
      ∀ db : DB, (RemoveFilteredPolicy sec ptype fieldIndex fieldValues db).isSome = true := by
  refine ⟨accessed_in_range fieldIndex fieldValues hlo hlen, ?_, fun db => ?_⟩
  · rw [filterLine_eq ptype fieldIndex fieldValues hlo hhi hlen]
    rfl
  · rw [RemoveFilteredPolicy, filterLine_eq ptype fieldIndex fieldValues hlo hhi hlen]
    rfl

/-- C10, at `fieldIndex = -2` and four values: the reads are at indices 2 and 3. -/
theorem RemoveFilteredPolicy_never_panics_witness :
    (-9223372036854775808 : Int) ≤ -2 ∧ (-2 : Int) < 9223372036854775808 ∧
      ((["a", "b", "c", "d"] : List String).length : Int) < 9223372036854775808 ∧
      accessed (-2) ["a", "b", "c", "d"] = [2, 3] ∧
      (filterLine "p" (-2) ["a", "b", "c", "d"]).isSome = true :=
  ⟨by decide, by decide, by decide, by decide,
    (RemoveFilteredPolicy_never_panics "p" "p" (-2) ["a", "b", "c", "d"]
      (by decide) (by decide) (by decide)).2.1⟩

/-- C8, counterexample: `AddPolicy` of the rule [alice, "", read] on an empty
table, which satisfies the invariant, writes the row (p, alice, "", read): its
empty `v1` is followed by the non-empty `v2`, so the table no longer satisfies
the invariant. -/
theorem AddPolicy_breaks_contiguity :
    tableInv ⟨some [], [], []⟩ ∧
      (AddPolicy "p" "p" ["alice", "", "read"] ⟨some [], [], []⟩).2.table =
        some [⟨"p", "alice", "", "read", "", "", ""⟩] ∧
      ¬ rowInv (savePolicyLine "p" ["alice", "", "read"]) ∧
      ¬ tableInv (AddPolicy "p" "p" ["alice", "", "read"] ⟨some [], [], []⟩).2 := by
  decide

/-- C8, amended: the row written for a rule satisfies the row invariant exactly
when, among the rule's first six parameters, no empty one comes before a
non-empty one. A table that satisfies the invariant still satisfies it after
`AddPolicy` of such a rule, after `SavePolicy` of a model all of whose "p" and
"g" rules are such rules, and after any `RemovePolicy` or
`RemoveFilteredPolicy`, whether or not the database fails a request. -/
theorem table_invariant_preserved (db : DB) (hinv : tableInv db) :
    (∀ ptype rule, rowInv (savePolicyLine ptype rule) ↔ ruleContiguous rule) ∧
      (∀ sec ptype rule, ruleContiguous rule → tableInv (AddPolicy sec ptype rule db).2) ∧
      (∀ model : Model,
        (∀ e, e ∈ model.sec "p" ++ model.sec "g" → ∀ rule, rule ∈ e.2.Policy →
          ruleContiguous rule) →
        tableInv (SavePolicy model db).2) ∧
      (∀ sec ptype rule, tableInv (RemovePolicy sec ptype rule db).2) ∧
      (∀ sec ptype fieldIndex fieldValues out,
        RemoveFilteredPolicy sec ptype fieldIndex fieldValues db = some out →
          tableInv out.2) := by
  refine ⟨rowInv_savePolicyLine, ?_, ?_, ?_, ?_⟩
  · intro sec ptype rule hrule
    exact exec_inv db _ hinv (fun line hl => by
      cases hl
      exact (rowInv_savePolicyLine ptype rule).2 hrule)
  · intro model hmodel
    rw [SavePolicy_eq]
    refine runPlan_inv _ db hinv (fun line hl => ?_)
    simp only [savePlan, modelRows, List.mem_cons, List.mem_map, List.mem_append,
      Request.insert.injEq, exists_eq_right, false_or, reduceCtorEq] at hl
    rcases hl with hl | hl
    · obtain ⟨e, he, rule, hr, rfl⟩ := mem_sectionRows _ _ hl
      exact (rowInv_savePolicyLine _ _).2 (hmodel e (by simp [he]) rule hr)
    · obtain ⟨e, he, rule, hr, rfl⟩ := mem_sectionRows _ _ hl
      exact (rowInv_savePolicyLine _ _).2 (hmodel e (by simp [he]) rule hr)
  · intro sec ptype rule
    exact exec_inv db _ hinv (fun line hl => by cases hl)
  · intro sec ptype fieldIndex fieldValues out hout
    simp only [RemoveFilteredPolicy, Option.map_eq_some'] at hout
    obtain ⟨line, _, rfl⟩ := hout
    exact exec_inv db _ hinv (fun line hl => by cases hl)

/-- C8 amended, at a table of two rows and the rule [bob, data2, write]. -/
theorem table_invariant_preserved_witness :
    tableInv ⟨some [⟨"p", "alice", "data1", "read", "", "", ""⟩,
        ⟨"g", "alice", "admin", "", "", "", ""⟩], [], []⟩ ∧
      ruleContiguous ["bob", "data2", "write"] ∧
      tableInv (AddPolicy "p" "p" ["bob", "data2", "write"]
        ⟨some [⟨"p", "alice", "data1", "read", "", "", ""⟩,
          ⟨"g", "alice", "admin", "", "", "", ""⟩], [], []⟩).2 :=
  ⟨by decide, by decide,
    (table_invariant_preserved
      ⟨some [⟨"p", "alice", "data1", "read", "", "", ""⟩,
        ⟨"g", "alice", "admin", "", "", "", ""⟩], [], []⟩ (by decide)).2.1
      "p" "p" ["bob", "data2", "write"] (by decide)⟩

/-- C1, counterexample: the model whose only rule is [alice, "", read] (three
parameters) is saved as the row (p, alice, "", read); `loadPolicyLine` leaves
the empty field out and hands "p, alice, read" to the parser, the very text of
the rule [alice, read], so the loaded model holds [alice, read] under "p" and
not the rule that was saved. -/
theorem round_trip_loses_empty_parameter :
    (SavePolicy [("p", [("p", ⟨[["alice", "", "read"]]⟩)])] ⟨some [], [], []⟩).1 = none ∧
      (SavePolicy [("p", [("p", ⟨[["alice", "", "read"]]⟩)])] ⟨some [], [], []⟩).2.table =
        some [⟨"p", "alice", "", "read", "", "", ""⟩] ∧
      lineText ⟨"p", "alice", "", "read", "", "", ""⟩ = "p, alice, read" ∧
      lineText (savePolicyLine "p" ["alice", "read"]) = "p, alice, read" ∧
      Model.tuplesOf [("p", [("p", ⟨[["alice", "", "read"]]⟩)])] "p" =
        [["alice", "", "read"]] ∧
      (LoadPolicy []
          (SavePolicy [("p", [("p", ⟨[["alice", "", "read"]]⟩)])] ⟨some [], [], []⟩).2).2.1.tuplesOf
          "p" = [["alice", "read"]] ∧
      ¬ ((LoadPolicy []
          (SavePolicy [("p", [("p", ⟨[["alice", "", "read"]]⟩)])] ⟨some [], [], []⟩).2).2.1.tuplesOf
          "p").Perm (Model.tuplesOf [("p", [("p", ⟨[["alice", "", "read"]]⟩)])] "p") := by
  have h1 : Model.tuplesOf [("p", [("p", ⟨[["alice", "", "read"]]⟩)])] "p" =
      [["alice", "", "read"]] := by decide
  have h2 : (LoadPolicy []
      (SavePolicy [("p", [("p", ⟨[["alice", "", "read"]]⟩)])] ⟨some [], [], []⟩).2).2.1.tuplesOf
      "p" = [["alice", "read"]] := by decide
  refine ⟨by decide, by decide, by decide, by decide, h1, h2, ?_⟩
  rw [h1, h2, List.singleton_perm_singleton]
  decide

/-- C1, amended: for every model whose "p" and "g" rules have at most six
parameters, each parameter non-empty, free of commas and without white space
at its ends, and whose rule types are free of commas and without white space
at their ends, `SavePolicy` on an existing table followed by `LoadPolicy` into
a fresh model (no request failing) loads, for every rule type, exactly the
model's tuples; and in whatever order the rows are read, the loaded tuples of
a rule type are the model's tuples up to order. -/
theorem save_load_round_trip (model : Model) (t0 : List casBinRule) (db : DB)
    (hclean : ∀ e, e ∈ model.sec "p" ++ model.sec "g" → cleanType e.1 ∧
      ∀ rule, rule ∈ e.2.Policy → rule.length ≤ 6 ∧ ∀ p, p ∈ rule → cleanParam p)
    (hexists : db.table = some t0)
    (hfaults : true ∉ db.faults.take ((savePlan model).length + 1)) :
    (SavePolicy model db).1 = none ∧
      (LoadPolicy [] (SavePolicy model db).2).1 = none ∧
      (∀ ptype, (LoadPolicy [] (SavePolicy model db).2).2.1.tuplesOf ptype =
        model.tuplesOf ptype) ∧
      ∀ rows, rows.Perm ((SavePolicy model db).2.table.getD []) →
        ∀ ptype, ((loadLines rows []).tuplesOf ptype).Perm (model.tuplesOf ptype) := by
  have hget := getD_of_not_mem_take _ _ hfaults
  have hsave : SavePolicy model db =
      (none, ⟨some (modelRows model), db.faults.drop (savePlan model).length,
        db.log ++ savePlan model⟩) := by
    rw [SavePolicy_eq]
    exact runPlan_ok _ db _ (fun i hi => hget i (by omega))
      (by rw [hexists]; exact tableAfter_savePlan model t0)
  have hhead : (db.faults.drop (savePlan model).length).head? ≠ some true := by
    have := hget (savePlan model).length (by omega)
    intro h
    rw [List.head?_drop] at h
    simp [List.getD_eq_getElem?_getD, h] at this
  have hscan := exec_ok ⟨some (modelRows model), db.faults.drop (savePlan model).length,
    db.log ++ savePlan model⟩ .scan (some (modelRows model)) hhead rfl
  rw [hsave]
  refine ⟨rfl, ?_, ?_, ?_⟩
  · simp only [LoadPolicy, hscan]
  · intro ptype
    simp only [LoadPolicy, hscan, Option.getD_some, loadLines_eq, List.nil_append]
    exact modelRows_parse model hclean ptype
  · intro rows hperm ptype
    simp only [Option.getD_some] at hperm
    rw [loadLines_eq, List.nil_append, ← modelRows_parse model hclean ptype]
    unfold Loaded.tuplesOf
    exact ((hperm.map _).filter _).map _

/-- C1 amended, at a model with two "p" rules and one "g" rule. -/
theorem save_load_round_trip_witness :
    (∀ e, e ∈ Model.sec [("p", [("p", ⟨[["alice", "data1", "read"],
          ["bob", "data2", "write"]]⟩)]), ("g", [("g", ⟨[["alice", "admin"]]⟩)])] "p" ++
        Model.sec [("p", [("p", ⟨[["alice", "data1", "read"],
          ["bob", "data2", "write"]]⟩)]), ("g", [("g", ⟨[["alice", "admin"]]⟩)])] "g" →
      cleanType e.1 ∧
        ∀ rule, rule ∈ e.2.Policy → rule.length ≤ 6 ∧ ∀ p, p ∈ rule → cleanParam p) ∧
      (DB.mk (some [⟨"p", "old", "", "", "", "", ""⟩]) [] []).table =
        some [⟨"p", "old", "", "", "", "", ""⟩] ∧
      true ∉ (DB.mk (some [⟨"p", "old", "", "", "", "", ""⟩]) [] []).faults.take
        ((savePlan [("p", [("p", ⟨[["alice", "data1", "read"],
          ["bob", "data2", "write"]]⟩)]), ("g", [("g", ⟨[["alice", "admin"]]⟩)])]).length + 1) ∧
      (LoadPolicy [] (SavePolicy [("p", [("p", ⟨[["alice", "data1", "read"],
            ["bob", "data2", "write"]]⟩)]), ("g", [("g", ⟨[["alice", "admin"]]⟩)])]
          (DB.mk (some [⟨"p", "old", "", "", "", "", ""⟩]) [] [])).2).2.1.tuplesOf "p" =
        [["alice", "data1", "read"], ["bob", "data2", "write"]] :=
  ⟨by decide, rfl, by decide,
    ((save_load_round_trip [("p", [("p", ⟨[["alice", "data1", "read"],
          ["bob", "data2", "write"]]⟩)]), ("g", [("g", ⟨[["alice", "admin"]]⟩)])]
        [⟨"p", "old", "", "", "", "", ""⟩]
        (DB.mk (some [⟨"p", "old", "", "", "", "", ""⟩]) [] [])
        (by decide) rfl (by decide)).2.2.1 "p").trans (by decide)⟩

/-- C7, counterexample: the rule [" alice"] has one parameter, non-empty and
free of commas. After `AddPolicy("p", "p", [" alice"])` the row's line text is
"p,  alice" (the rule type, ", " and the parameter, as the claim says), yet
the parser trims the token, so the loaded model holds [alice] under "p" and
not the tuple that was added. -/
theorem add_load_trims_parameter :
    ([" alice"] : List String).length ≤ 6 ∧ " alice" ≠ "" ∧ ',' ∉ " alice".data ∧
      (AddPolicy "p" "p" [" alice"] ⟨some [], [], []⟩).2.table =
        some [⟨"p", " alice", "", "", "", "", ""⟩] ∧
      lineText ⟨"p", " alice", "", "", "", "", ""⟩ = "p,  alice" ∧
      (LoadPolicy [] (AddPolicy "p" "p" [" alice"] ⟨some [], [], []⟩).2).2.1 =
        [("p", ["alice"])] ∧
      [" alice"] ∉
        (LoadPolicy [] (AddPolicy "p" "p" [" alice"] ⟨some [], [], []⟩).2).2.1.tuplesOf "p" := by
  decide

/-- C7, amended: for every rule type that is free of commas and has no white
space at its ends and every rule of at most six parameters, each non-empty,
free of commas and without white space at its ends, `AddPolicy` on an existing
table followed by `LoadPolicy` (no request failing) hands the parser, for the
added row, the rule type followed by ", " and each parameter in order, and the
parser adds exactly that tuple under that rule type. After
`AddPolicy("p", "p", ["alice", "data1", "read"])` the line is
"p, alice, data1, read" and the model holds [alice, data1, read] under "p". -/
theorem add_then_load (sec ptype : String) (rule : List String) (t : List casBinRule) (db : DB)
    (htype : cleanType ptype) (hlen : rule.length ≤ 6) (hrule : ∀ p, p ∈ rule → cleanParam p)
    (hexists : db.table = some t) (hfaults : true ∉ db.faults.take 2) :
    (AddPolicy sec ptype rule db).1 = none ∧
      (AddPolicy sec ptype rule db).2.table = some (t ++ [savePolicyLine ptype rule]) ∧
      lineText (savePolicyLine ptype rule) = rule.foldl (fun acc p => acc ++ ", " ++ p) ptype ∧
      parseLine (lineText (savePolicyLine ptype rule)) = (ptype, rule) ∧
      (LoadPolicy [] (AddPolicy sec ptype rule db).2).1 = none ∧
      (LoadPolicy [] (AddPolicy sec ptype rule db).2).2.1 =
        t.map (fun line => parseLine (lineText line)) ++ [(ptype, rule)] ∧
      rule ∈ (LoadPolicy [] (AddPolicy sec ptype rule db).2).2.1.tuplesOf ptype ∧
      lineText (savePolicyLine "p" ["alice", "data1", "read"]) = "p, alice, data1, read" ∧
      (LoadPolicy [] (AddPolicy "p" "p" ["alice", "data1", "read"] ⟨some [], [], []⟩).2).2.1 =
        [("p", ["alice", "data1", "read"])] := by
  have hget := getD_of_not_mem_take _ _ hfaults
  have hadd : AddPolicy sec ptype rule db =
      (none, ⟨some (t ++ [savePolicyLine ptype rule]), db.faults.tail,
        db.log ++ [.insert (savePolicyLine ptype rule)]⟩) :=
    exec_ok db _ _ (head_of_getD _ _ (hget 0 (by omega)) rfl) (by rw [hexists]; rfl)
  have hscan := exec_ok ⟨some (t ++ [savePolicyLine ptype rule]), db.faults.tail,
      db.log ++ [.insert (savePolicyLine ptype rule)]⟩ .scan
      (some (t ++ [savePolicyLine ptype rule]))
      (head_of_getD _ _ ((getD_tail db.faults 0).trans (hget 1 (by omega))) rfl) rfl
  have hparse := parseLine_lineText ptype rule htype hlen hrule
  have hload : (LoadPolicy [] (AddPolicy sec ptype rule db).2).2.1 =
      t.map (fun line => parseLine (lineText line)) ++ [(ptype, rule)] := by
    rw [hadd]
    simp only [LoadPolicy, hscan, Option.getD_some, loadLines_eq, List.nil_append,
      List.map_append, List.map_cons, List.map_nil, hparse]
  refine ⟨by rw [hadd], by rw [hadd],
    lineText_savePolicyLine ptype rule hlen (fun p hp => (hrule p hp).1), hparse, ?_, hload,
    ?_, by decide, by decide⟩
  · rw [hadd]
    simp only [LoadPolicy, hscan]
  · rw [hload]
    simp [Loaded.tuplesOf]

/-- C7 amended, at the rule [bob, data2, write] added to a table of one row. -/
theorem add_then_load_witness :
    cleanType "p" ∧ (["bob", "data2", "write"] : List String).length ≤ 6 ∧
      (∀ p, p ∈ (["bob", "data2", "write"] : List String) → cleanParam p) ∧
      (DB.mk (some [⟨"p", "alice", "data1", "read", "", "", ""⟩]) [] []).table =
        some [⟨"p", "alice", "data1", "read", "", "", ""⟩] ∧
      true ∉ (DB.mk (some [⟨"p", "alice", "data1", "read", "", "", ""⟩]) [] []).faults.take 2 ∧
      (LoadPolicy [] (AddPolicy "p" "p" ["bob", "data2", "write"]
        (DB.mk (some [⟨"p", "alice", "data1", "read", "", "", ""⟩]) [] [])).2).2.1 =
        [("p", ["alice", "data1", "read"]), ("p", ["bob", "data2", "write"])] :=
  ⟨by decide, by decide, by decide, rfl, by decide,
    (add_then_load "p" "p" ["bob", "data2", "write"]
      [⟨"p", "alice", "data1", "read", "", "", ""⟩]
      (DB.mk (some [⟨"p", "alice", "data1", "read", "", "", ""⟩]) [] [])
      (by decide) (by decide) (by decide) rfl (by decide)).2.2.2.2.2.1.trans (by decide)⟩

end GfCasbin
